import Mathlib

/-!
Verification development for a mini fiber-based tree-reconciliation engine
(createElement / render / work loop / reconcileChildren / commit phase /
useState / useEffect).

The definitions below are shallow embeddings of the TypeScript source:
  * attribute diffing (`updateDom`) and the key predicates `isProperty`,
    `isEvent`, `isGone`, `isNew`;
  * the positional child reconciler (`reconcileChildren`);
  * the hooks runtime (`useState`, `setState`, `useEffect`, `hasDepsChanged`);
  * the post-commit effect executor (`executeEffects`);
  * the commit-phase placement logic (dom-parent lookup, anchor lookup,
    `insertBefore` semantics);
  * an arena-based machine for the cooperative scheduler
    (`performUnitOfWork`, the work loop, `commitRoot`).

JavaScript values that matter to the engine are modelled by `AVal`
(strings, numbers, and functions identified by a reference id, so that
`===` / `Object.is` becomes decidable equality).  Component functions are
modelled as pure description producers supplied through an environment
`Nat → props → element`; the hook runtime, which in the source runs via
mutable globals during a component call, is modelled separately as explicit
state threading.
-/

namespace ReactMini

/-- A fiber/element type tag: a host tag string (the text pseudo-tag
`TEXT_ELEMENT` is one of them) or a component function, identified by a
reference id since JavaScript compares functions by identity. -/
inductive FType where
  | host (tag : String)
  | comp (id : Nat)
deriving DecidableEq, Repr

/-- The reserved tag for text leaves. -/
def textTag : String := "TEXT_ELEMENT"

/-- An attribute value: string, number, or a function reference (event
handlers, state updaters) identified by id.  `===`/`Object.is` on these
values is modelled by decidable equality. -/
inductive AVal where
  | str (s : String)
  | num (n : Int)
  | fn (id : Nat)
  | null
deriving DecidableEq, Repr

/-- A tree description (the source's `RElement` as produced by
`createElement`): a type tag, named attributes, and ordered children.
The source stores children inside `props`; here the `children` entry of
`props` is split into its own field and `attrs` holds the remaining
(non-`children`) entries. -/
inductive Elem where
  | mk (type : FType) (attrs : List (String × AVal)) (children : List Elem)

def Elem.type : Elem → FType
  | .mk t _ _ => t

def Elem.attrs : Elem → List (String × AVal)
  | .mk _ a _ => a

def Elem.children : Elem → List Elem
  | .mk _ _ c => c

/-- Effect tags assigned during reconciliation and consumed at commit. -/
inductive EffTag where
  | PLACEMENT
  | UPDATE
  | DELETION
deriving DecidableEq, Repr

/-! ## Host operations and the attribute differ `updateDom`

The host mutation interface, as invoked by the commit phase.  Host nodes
are opaque handles (`Nat`).  The source removes a plain attribute by
assigning the empty string (`dom[name] = ''`), so attribute removal is a
`setProp` with `AVal.str ""`.  `runCleanupOp`/`runEffectOp` record
invocations of user cleanup / effect callbacks (identified by function id)
during the commit phase. -/
inductive HostOp where
  | createElement (h : Nat) (tag : String)
  | createTextNode (h : Nat)
  | setProp (h : Nat) (name : String) (v : AVal)
  | addListener (h : Nat) (event : String) (v : AVal)
  | removeListener (h : Nat) (event : String) (v : AVal)
  | insertBefore (parent : Nat) (child : Nat) (anchor : Option Nat)
  | removeChild (parent : Nat) (child : Nat)
  | runCleanupOp (id : Nat)
  | runEffectOp (id : Nat)
deriving DecidableEq, Repr

/-- First binding of key `k` in a JS-object-as-list; `none` models
`undefined`. -/
def lookupProp (l : List (String × AVal)) (k : String) : Option AVal :=
  (l.find? (fun p => p.1 = k)).map (·.2)

/-- `Object.keys`. -/
def keysOf (l : List (String × AVal)) : List String := l.map (·.1)

/-- Source: `key !== 'children' && key !== '__source' && key !== '__self'`.
Note that event keys (prefixed `on`) are NOT excluded. -/
def isProperty (k : String) : Bool :=
  k ≠ "children" && k ≠ "__source" && k ≠ "__self"

/-- Source: `key.startsWith('on')`, expressed over the character list (the
built-in `String.startsWith` does not reduce in the kernel). -/
def isEvent (k : String) : Bool := k.toList.take 2 = ['o', 'n']

/-- Source: `key => !(key in next)`. -/
def isGone (next : List (String × AVal)) (k : String) : Bool :=
  !(lookupProp next k).isSome

/-- Source: `key => prev[key] !== next[key]` (with `undefined` for a
missing key, modelled by `none`). -/
def isNew (prev next : List (String × AVal)) (k : String) : Bool :=
  lookupProp prev k ≠ lookupProp next k

/-- `name.toLowerCase().substring(2)`: the event type of an `on`-prefixed
attribute name, expressed over the character list. -/
def eventTypeOf (name : String) : String :=
  String.mk ((name.toList.map Char.toLower).drop 2)

/-- The commit-phase attribute differ, embedded from `updateDom`:
1. remove old or changed event listeners;
2. blank out plain properties that are gone (`dom[name] = ''`);
3. set new or changed plain properties;
4. add new event listeners. -/
def updateDom (h : Nat) (prevProps nextProps : List (String × AVal)) :
    List HostOp :=
  ((keysOf prevProps).filter
      (fun k => isEvent k &&
        (!(lookupProp nextProps k).isSome || isNew prevProps nextProps k))).map
    (fun k => HostOp.removeListener h (eventTypeOf k)
      ((lookupProp prevProps k).getD AVal.null))
  ++ ((keysOf prevProps).filter
      (fun k => isProperty k && isGone nextProps k)).map
    (fun k => HostOp.setProp h k (AVal.str ""))
  ++ ((keysOf nextProps).filter
      (fun k => isProperty k && isNew prevProps nextProps k)).map
    (fun k => HostOp.setProp h k ((lookupProp nextProps k).getD AVal.null))
  ++ ((keysOf nextProps).filter
      (fun k => isEvent k && isNew prevProps nextProps k)).map
    (fun k => HostOp.addListener h (eventTypeOf k)
      ((lookupProp nextProps k).getD AVal.null))

/-! ## Fibers and the positional child reconciler -/

/-- A fiber record as manipulated by `reconcileChildren`: type tag,
attributes, child descriptions (the `children` entry of `props`), the host
handle (`dom`), the `alternate` link to the matching fiber of the previous
committed pass, and the effect tag.  The `parent`/`child`/`sibling` links
are represented positionally: `reconcileChildren` below turns the sibling
chain into a list. -/
inductive RFiber where
  | mk (type : FType) (attrs : List (String × AVal)) (children : List Elem)
       (dom : Option Nat) (alternate : Option RFiber) (effectTag : Option EffTag)

def RFiber.type : RFiber → FType
  | .mk t _ _ _ _ _ => t

def RFiber.attrs : RFiber → List (String × AVal)
  | .mk _ a _ _ _ _ => a

def RFiber.children : RFiber → List Elem
  | .mk _ _ c _ _ _ => c

def RFiber.dom : RFiber → Option Nat
  | .mk _ _ _ d _ _ => d

def RFiber.alternate : RFiber → Option RFiber
  | .mk _ _ _ _ al _ => al

def RFiber.effectTag : RFiber → Option EffTag
  | .mk _ _ _ _ _ e => e

/-- `oldFiber.effectTag = 'DELETION'`: the old fiber with its tag
overwritten. -/
def RFiber.withTag : RFiber → EffTag → RFiber
  | .mk t a c d al _, tag => .mk t a c d al (some tag)

/-- The UPDATE fiber built when old and new agree on type: reuse the old
`dom`, take the new description's props, link `alternate` to the old
fiber. -/
def updateFiber (o : RFiber) (e : Elem) : RFiber :=
  .mk o.type e.attrs e.children o.dom (some o) (some EffTag.UPDATE)

/-- The PLACEMENT fiber built for a description with no type-equal
counterpart: spread of the description, no `dom`, `alternate = null`. -/
def placementFiber (e : Elem) : RFiber :=
  .mk e.type e.attrs e.children none none (some EffTag.PLACEMENT)

/-- Once the description list is exhausted, every remaining iteration of
the source loop only fires the DELETION branch: tag each leftover old
fiber and push it. -/
def deleteRest : List RFiber → List RFiber
  | [] => []
  | o :: os => o.withTag EffTag.DELETION :: deleteRest os

/-- The core of `reconcileChildren`, embedded from the source's lockstep
loop over the new description list and the old child chain.  Each
iteration consumes the head of both sides:
  * same type: build an UPDATE fiber;
  * a description with no type-equal counterpart: build a PLACEMENT fiber;
  * an old fiber with no type-equal counterpart: tag it DELETION and push
    it onto the deletions list (both of the last two fire when both sides
    exist with differing types).
Returns the new child chain (position `i` of the result is the fiber
linked at position `i` of the new sibling chain) and the fibers appended
to the deletions list, in push order. -/
def reconcileChildren : List RFiber → List Elem → List RFiber × List RFiber
  | olds, [] => ([], deleteRest olds)
  | [], e :: es =>
      let rest := reconcileChildren [] es
      (placementFiber e :: rest.1, rest.2)
  | o :: os, e :: es =>
      let rest := reconcileChildren os es
      if e.type = o.type then
        (updateFiber o e :: rest.1, rest.2)
      else
        (placementFiber e :: rest.1, o.withTag EffTag.DELETION :: rest.2)

/-! ## Hooks runtime

The source stores hook records on `wipFiber.hooks`, indexed by call order,
and reads the matching record from `wipFiber.alternate.hooks`.  State
cells and effect cells are modelled separately (the spec declares
cross-pass hook-kind instability to be undefined behavior). -/

/-- A state update action: either a literal replacement value or a
function from the previous value to the next. -/
inductive Action (V : Type) where
  | set (v : V)
  | fnAct (f : V → V)

/-- `typeof action === 'function' ? action(state) : action`. -/
def applyAction {V : Type} : Action V → V → V
  | .set v, _ => v
  | .fnAct f, s => f s

/-- `Object.is`, modelled as decidable equality on the value model (which
identifies functions by reference id). -/
def sameValue {V : Type} [DecidableEq V] (a b : V) : Bool := a = b

/-- A `useState` hook record: the stored state and the pending-update
queue. -/
structure StateHook (V : Type) where
  state : V
  queue : List (Action V)

/-- `useState`, embedded from the source: look up the same-index hook on
the alternate's hooks array; start from its stored state (or the initial
value when absent); run every queued action in enqueue order; the new
record always carries an empty queue. -/
def useState {V : Type} (altHooks : Option (List (StateHook V)))
    (hookIndex : Nat) (initial : V) : StateHook V :=
  let oldHook := match altHooks with
    | some hs => hs.get? hookIndex
    | none => none
  let base : StateHook V :=
    { state := match oldHook with
        | some o => o.state
        | none => initial,
      queue := [] }
  let actions := match oldHook with
    | some o => o.queue
    | none => []
  { base with state := actions.foldl (fun s a => applyAction a s) base.state }

/-- The scheduler's global state touched by `setState`: the
work-in-progress root, the committed root, the next-unit-of-work pointer
and the deletions list.  Pointers are modelled as fiber values. -/
structure Sched where
  wipRoot : Option RFiber
  currentRoot : Option RFiber
  nextUnitOfWork : Option RFiber
  deletions : List RFiber

/-- The updater returned by `useState`, embedded from the source's
`setState`: precompute the prospective value; if it is `Object.is`-equal
to the current value, bail out (no queue push, no new pass); otherwise
push the action onto the hook's queue and schedule a fresh pass by
building a new work-in-progress root from the committed root (reusing its
`dom` and `props`, linking `alternate` to it), pointing the next-unit
pointer at it and resetting the deletions list.  The source asserts
`currentRoot!`; a missing committed root (which would throw) leaves the
scheduler state untouched here. -/
def setState {V : Type} [DecidableEq V] (hook : StateHook V) (g : Sched)
    (action : Action V) : StateHook V × Sched :=
  let oldState := hook.state
  let newState := applyAction action oldState
  if sameValue oldState newState then
    (hook, g)
  else
    let hook2 := { hook with queue := hook.queue ++ [action] }
    match g.currentRoot with
    | some cr =>
        let w : RFiber := .mk cr.type cr.attrs cr.children cr.dom (some cr) none
        (hook2, { g with wipRoot := some w, nextUnitOfWork := some w,
                         deletions := [] })
    | none => (hook2, g)

/-- A `useEffect` hook record: the stored dependency list (`none` models
an omitted argument) and the stored cleanup function reference. -/
structure EffectHook (V : Type) where
  deps : Option (List V)
  cleanup : Option Nat
deriving DecidableEq, Repr

/-- Dependency comparison, embedded from `hasDepsChanged`: no previous
list → changed; no new list supplied → changed; different lengths →
changed; otherwise changed iff some index fails the element-wise
`Object.is` comparison (the source's index loop over equal-length arrays
is the `any` over their zip). -/
def hasDepsChanged {V : Type} [DecidableEq V] :
    Option (List V) → Option (List V) → Bool
  | none, _ => true
  | some _, none => true
  | some p, some n =>
      if p.length ≠ n.length then true
      else (p.zip n).any (fun pr => !(sameValue pr.1 pr.2))

/-- `wipFiber?.alternate?.hooks?.[hookIndex]`: look up the same-index hook
record on the alternate's hooks array (`none` models `undefined` at any
step of the optional chain). -/
def altHookAt {V : Type} (altHooks : Option (List (EffectHook V)))
    (hookIndex : Nat) : Option (EffectHook V) :=
  match altHooks with
  | some hs => hs.get? hookIndex
  | none => none

/-- `useEffect`, embedded from the source: read the same-index hook of the
alternate, compare dependencies, build the new hook record carrying over
the old cleanup, and queue `(callback, newHook)` onto the fiber's
`effectCallbacks` exactly when the comparison reports a change; the new
hook is always pushed and the hook index advanced.  Returns (new
effectCallbacks, new hooks array, new hook index).  Callbacks are function
references (`Nat`). -/
def useEffect {V : Type} [DecidableEq V]
    (altHooks : Option (List (EffectHook V))) (hookIndex : Nat)
    (effectCallbacks : List (Nat × EffectHook V))
    (hooks : List (EffectHook V)) (callback : Nat)
    (deps : Option (List V)) :
    List (Nat × EffectHook V) × List (EffectHook V) × Nat :=
  let oldHook := altHookAt altHooks hookIndex
  let hasChanged := hasDepsChanged
    (match oldHook with
      | some o => o.deps
      | none => none) deps
  let newHook : EffectHook V :=
    { deps := deps,
      cleanup := match oldHook with
        | some o => o.cleanup
        | none => none }
  let ecs := if hasChanged then effectCallbacks ++ [(callback, newHook)]
    else effectCallbacks
  (ecs, hooks ++ [newHook], hookIndex + 1)

/-! ## Post-commit effect execution (`executeEffects`)

The executor walks the committed fiber tree, recursing into the child,
then the sibling, and only then running the node's own queued effects.
Each queued entry references the fiber's hook record (by index into the
fiber's hooks array, modelling the shared mutable hook object), carries
the callback's function id and, since callbacks are opaque, the cleanup
reference the callback returns when invoked (`none` models a
non-function return value). -/

/-- One entry of a fiber's `effectCallbacks` list. -/
structure EffEntry where
  callback : Nat
  ret : Option Nat
  hookIdx : Nat
deriving DecidableEq, Repr

/-- An observable event of the effect executor. -/
inductive EffEvent where
  | cleanup (id : Nat)
  | callback (id : Nat)
deriving DecidableEq, Repr

/-- A fiber tree for the executor: per-node hook records (only the
`cleanup` slot matters here), the queued `effectCallbacks`, the first
child and the next sibling (`nil` models a null link). -/
inductive FibTree where
  | nil
  | node (hooks : List (EffectHook Nat)) (effects : List EffEntry)
         (child : FibTree) (sibling : FibTree)

/-- Run one fiber's queued effects in order, embedded from the source's
`forEach`: invoke the hook's previously stored cleanup (when present),
then the callback; when the callback returns a function, store it as the
hook's cleanup for the next pass. -/
def runEntries (hooks : List (EffectHook Nat)) :
    List EffEntry → List EffEvent × List (EffectHook Nat)
  | [] => ([], hooks)
  | e :: rest =>
      let h := hooks.get? e.hookIdx
      let evs := (match h with
        | some hh => match hh.cleanup with
          | some c => [EffEvent.cleanup c]
          | none => []
        | none => []) ++ [EffEvent.callback e.callback]
      let hooks2 := match h, e.ret with
        | some hh, some c => hooks.set e.hookIdx { hh with cleanup := some c }
        | _, _ => hooks
      let rest2 := runEntries hooks2 rest
      (evs ++ rest2.1, rest2.2)

/-- `executeEffects`, embedded from the source: recurse into the child,
then the sibling, then run the current node's queued effects and clear its
`effectCallbacks`.  Returns the event trace and the tree after the
mutations (updated hook cleanups, emptied effect queues). -/
def executeEffects : FibTree → List EffEvent × FibTree
  | .nil => ([], .nil)
  | .node hooks effects child sibling =>
      let rc := executeEffects child
      let rs := executeEffects sibling
      let re := runEntries hooks effects
      (rc.1 ++ rs.1 ++ re.1, .node re.2 [] rc.2 rs.2)

/-! ## Commit-phase placement (`commitWork`, PLACEMENT branch)

For a PLACEMENT fiber with a host handle, `commitWork` first applies all
attributes (diffing against an empty previous attribute set, the source's
object holding only an empty `children`), then inserts the handle into the nearest ancestor that
owns one, anchored at the first following sibling that owns a handle and
is not itself freshly placed; `insertBefore` with a null anchor appends at
the end. -/

/-- The sibling-chain view needed by the anchor search. -/
structure CFiber where
  dom : Option Nat
  effectTag : Option EffTag
deriving DecidableEq, Repr

/-- The `while (domParentFiber && !domParentFiber.dom)` walk: the handle
of the nearest ancestor owning one, given the ancestors' `dom` fields from
the parent upward. -/
def findDomParentDom : List (Option Nat) → Option Nat
  | [] => none
  | some d :: _ => some d
  | none :: rest => findDomParentDom rest

/-- The anchor search, embedded from the source's sibling walk: take the
first following sibling whose `dom` exists and whose tag is not
PLACEMENT. -/
def findAnchor : List CFiber → Option Nat
  | [] => none
  | s :: rest =>
      match s.dom with
      | some d => if s.effectTag = some EffTag.PLACEMENT then findAnchor rest
                  else some d
      | none => findAnchor rest

/-- Host `insertBefore` semantics on a parent's child-handle list: a null
anchor appends at the end (exactly `appendChild`); an anchor inserts
immediately before its first occurrence. -/
def insertBeforeList (l : List Nat) (c : Nat) : Option Nat → List Nat
  | none => l ++ [c]
  | some a => l.takeWhile (· ≠ a) ++ c :: l.dropWhile (· ≠ a)

/-- The host operations emitted by `commitWork` for a PLACEMENT fiber
owning handle `d` with attributes `attrs`: apply all attributes
(`updateDom` against the empty previous props), then insert under the
nearest ancestor handle before the found anchor.  `ancestorDoms` lists the
`dom` field of each ancestor from the parent upward; `siblings` is the
fiber's following sibling chain.  The `.getD 0` models the source's
non-null assertion on the dom parent (the root fiber always owns the
container handle). -/
def commitPlacementOps (ancestorDoms : List (Option Nat)) (d : Nat)
    (attrs : List (String × AVal)) (siblings : List CFiber) : List HostOp :=
  updateDom d [] attrs
    ++ [HostOp.insertBefore ((findDomParentDom ancestorDoms).getD 0) d
        (findAnchor siblings)]

/-! ## The scheduler machine

An arena-based embedding of the mutable fiber graph and the module-level
scheduler state (`nextUnitOfWork`, `wipRoot`, `currentRoot`, `deletions`,
the commit counter).  Fibers are addressed by index into a heap; host
handles are allocated from a counter; host mutations are emitted as a
`HostOp` trace.  Component functions are supplied as an environment
mapping the component's reference id and its props to the produced
description.  Pointer walks over the heap (sibling chains, ancestor
chains, commit recursion) take fuel, which is irrelevant on well-formed
acyclic heaps and merely truncates on malformed ones. -/

/-- A fiber record in the arena: links are heap addresses, `dom` is a host
handle.  Of the hook records only the `cleanup` slot is modelled here (the
single field the commit phase reads); hook value/queue dynamics are
modelled by `useState`/`useEffect` above. -/
structure MFiber where
  type : FType
  attrs : List (String × AVal)
  children : List Elem
  dom : Option Nat
  parent : Option Nat
  child : Option Nat
  sibling : Option Nat
  alternate : Option Nat
  effectTag : Option EffTag
  hooks : List (Option Nat)
  effectCallbacks : List EffEntry

/-- The machine: fiber heap plus the module-level mutable state of the
source (`nextUnitOfWork`, `wipRoot`, `currentRoot`, `deletions`,
`commitCounter`) and the host-handle allocator. -/
structure Machine where
  heap : List MFiber
  nextUnitOfWork : Option Nat
  wipRoot : Option Nat
  currentRoot : Option Nat
  deletions : List Nat
  nextDom : Nat
  commitCount : Nat

/-- Component environment: maps a component function id and its props
(attributes and children) to the produced description. -/
def ElemEnv : Type := Nat → List (String × AVal) → List Elem → Elem

def getF (m : Machine) (a : Nat) : Option MFiber := m.heap.get? a

def setF (m : Machine) (a : Nat) (f : MFiber) : Machine :=
  { m with heap := m.heap.set a f }

def allocF (m : Machine) (f : MFiber) : Machine × Nat :=
  ({ m with heap := m.heap ++ [f] }, m.heap.length)

/-- Collect a sibling chain (starting at `head`) as a list of addresses. -/
def chainToList (m : Machine) : Nat → Option Nat → List Nat
  | 0, _ => []
  | _, none => []
  | Nat.succ fuel, some a =>
      a :: chainToList m fuel ((getF m a).bind (·.sibling))

/-- The per-pair linking step of the reconciliation loop: on the first
iteration assign `wipFiber.child` (even when the new fiber is null);
afterwards, when a description exists, assign `prevSibling.sibling`. -/
def linkNewFiber (m : Machine) (wipA : Nat) (prev : Option Nat)
    (isFirst : Bool) (newA : Option Nat) (elementExists : Bool) : Machine :=
  if isFirst then
    match getF m wipA with
    | some f => setF m wipA { f with child := newA }
    | none => m
  else if elementExists then
    match prev with
    | some p =>
        match getF m p with
        | some pf => setF m p { pf with sibling := newA }
        | none => m
    | none => m
  else m

/-- Tag an old fiber DELETION in the heap and push its address onto the
deletions list. -/
def markDeletion (m : Machine) (oa : Nat) : Machine :=
  let m1 := match getF m oa with
    | some f => setF m oa { f with effectTag := some EffTag.DELETION }
    | none => m
  { m1 with deletions := m1.deletions ++ [oa] }

/-- Once the description list is exhausted, the remaining iterations of
the reconciliation loop only fire the DELETION branch (the link step is a
no-op there except on the very first iteration, handled by the caller). -/
def deleteRestM : Machine → List Nat → Machine
  | m, [] => m
  | m, oa :: os => deleteRestM (markDeletion m oa) os

/-- The lockstep loop of `reconcileChildren` over the arena: one iteration
consumes the head of the old chain and of the description list, applying
the UPDATE / PLACEMENT / DELETION branches exactly as the list-level
`reconcileChildren` above, but allocating fibers in the heap and wiring
`parent`/`child`/`sibling` links. -/
def reconcileGo (wipA : Nat) :
    Machine → List Nat → List Elem → Option Nat → Bool → Machine
  | m, [], [], _, _ => m
  | m, oa :: os, [], prev, isFirst =>
      let m2 := markDeletion m oa
      let m3 := linkNewFiber m2 wipA prev isFirst none false
      deleteRestM m3 os
  | m, [], e :: es, prev, isFirst =>
      let nf : MFiber :=
        { type := e.type, attrs := e.attrs, children := e.children,
          dom := none, parent := some wipA, child := none, sibling := none,
          alternate := none, effectTag := some EffTag.PLACEMENT,
          hooks := [], effectCallbacks := [] }
      let r := allocF m nf
      let m2 := linkNewFiber r.1 wipA prev isFirst (some r.2) true
      reconcileGo wipA m2 [] es (some r.2) false
  | m, oa :: os, e :: es, prev, isFirst =>
      match getF m oa with
      | some oldF =>
          if e.type = oldF.type then
            let nf : MFiber :=
              { type := oldF.type, attrs := e.attrs, children := e.children,
                dom := oldF.dom, parent := some wipA, child := none,
                sibling := none, alternate := some oa,
                effectTag := some EffTag.UPDATE,
                hooks := [], effectCallbacks := [] }
            let r := allocF m nf
            let m2 := linkNewFiber r.1 wipA prev isFirst (some r.2) true
            reconcileGo wipA m2 os es (some r.2) false
          else
            let nf : MFiber :=
              { type := e.type, attrs := e.attrs, children := e.children,
                dom := none, parent := some wipA, child := none,
                sibling := none, alternate := none,
                effectTag := some EffTag.PLACEMENT,
                hooks := [], effectCallbacks := [] }
            let r := allocF m nf
            let m2 := markDeletion r.1 oa
            let m3 := linkNewFiber m2 wipA prev isFirst (some r.2) true
            reconcileGo wipA m3 os es (some r.2) false
      | none =>
          let nf : MFiber :=
            { type := e.type, attrs := e.attrs, children := e.children,
              dom := none, parent := some wipA, child := none,
              sibling := none, alternate := none,
              effectTag := some EffTag.PLACEMENT,
              hooks := [], effectCallbacks := [] }
          let r := allocF m nf
          let m2 := { r.1 with deletions := r.1.deletions ++ [oa] }
          let m3 := linkNewFiber m2 wipA prev isFirst (some r.2) true
          reconcileGo wipA m3 os es (some r.2) false

/-- `reconcileChildren` on the arena: fetch the old child chain from the
alternate and run the lockstep loop. -/
def reconcileChildrenM (m : Machine) (a : Nat) (els : List Elem) : Machine :=
  let oldHead := ((getF m a).bind (·.alternate)).bind
    (fun alt => (getF m alt).bind (·.child))
  let olds := chainToList m m.heap.length oldHead
  reconcileGo a m olds els none true

/-- The `while (nextFiber)` walk at the end of `performUnitOfWork`:
starting from the finished fiber, return the first `sibling` found while
climbing `parent` links. -/
def nextFromAncestors (m : Machine) : Nat → Nat → Option Nat
  | 0, _ => none
  | Nat.succ fuel, a =>
      match getF m a with
      | none => none
      | some f =>
          match f.sibling with
          | some s => some s
          | none =>
              match f.parent with
              | some p => nextFromAncestors m fuel p
              | none => none

/-- One unit of work, embedded from `performUnitOfWork`: for a component
fiber reset its hooks array and reconcile against the single description
the component function produces; for a host fiber materialize its host
node if missing (emitting the creation op — the node stays detached) and
reconcile against `props.children`; then pick the next fiber (child first,
else the first ancestor sibling).  Returns the machine, the next-unit
pointer, and the emitted host operations. -/
def performUnitOfWork (env : ElemEnv) (m : Machine) (a : Nat) :
    Machine × Option Nat × List HostOp :=
  match getF m a with
  | none => (m, none, [])
  | some f =>
      let r :=
        match f.type with
        | FType.comp cid =>
            let m1 := setF m a { f with hooks := [] }
            let children := [env cid f.attrs f.children]
            (reconcileChildrenM m1 a children, ([] : List HostOp))
        | FType.host tag =>
            match f.dom with
            | some _ => (reconcileChildrenM m a f.children, [])
            | none =>
                let d := m.nextDom
                let op := if tag = textTag then HostOp.createTextNode d
                  else HostOp.createElement d tag
                let m1 := setF { m with nextDom := m.nextDom + 1 } a
                  { f with dom := some d }
                (reconcileChildrenM m1 a f.children, [op])
      let next := match (getF r.1 a).bind (·.child) with
        | some c => some c
        | none => nextFromAncestors r.1 r.1.heap.length a
      (r.1, next, r.2)

/-- One iteration of the work loop body:
`nextUnitOfWork = performUnitOfWork(nextUnitOfWork)`. -/
def stepA (env : ElemEnv) (m : Machine) (a : Nat) : Machine × List HostOp :=
  let r := performUnitOfWork env m a
  ({ r.1 with nextUnitOfWork := r.2.1 }, r.2.2)

/-- The `while (nextUnitOfWork && !shouldYield)` loop.  The time budget
`b` models the idle deadline: `shouldYield` becomes true once `b + 1`
units have been performed in this slice (the source checks the deadline
only after performing a unit, so a non-null pointer always gets at least
one unit). -/
def loopUnits (env : ElemEnv) : Nat → Machine → Machine × List HostOp
  | 0, m =>
      match m.nextUnitOfWork with
      | none => (m, [])
      | some a => stepA env m a
  | Nat.succ b, m =>
      match m.nextUnitOfWork with
      | none => (m, [])
      | some a =>
          let r := stepA env m a
          let r2 := loopUnits env b r.1
          (r2.1, r.2 ++ r2.2)

/-- Cleanup invocations of one fiber's hook records
(`node.hooks.forEach(...)`). -/
def hookCleanupOps (f : MFiber) : List HostOp :=
  f.hooks.flatMap (fun c =>
    match c with
    | some cid => [HostOp.runCleanupOp cid]
    | none => [])

/-- Pre-order cleanup collection over a fiber chain (a node, its child
subtree, then its following siblings), embedded from the subtree walk at
the top of `commitDeletion`. -/
def cleanupChain (m : Machine) : Nat → Option Nat → List HostOp
  | 0, _ => []
  | _, none => []
  | Nat.succ fuel, some a =>
      match getF m a with
      | none => []
      | some f =>
          hookCleanupOps f ++ cleanupChain m fuel f.child
            ++ cleanupChain m fuel f.sibling

/-- `commitDeletion`: run every cleanup of the fiber's subtree, then
remove its host handle from the dom parent; a handle-less fiber descends
to its first child (whose subtree cleanups run again, as in the
source). -/
def commitDeletionOps (m : Machine) : Nat → Nat → Nat → List HostOp
  | 0, _, _ => []
  | Nat.succ fuel, a, domParent =>
      match getF m a with
      | none => []
      | some f =>
          (hookCleanupOps f ++ cleanupChain m m.heap.length f.child)
            ++ (match f.dom with
              | some d => [HostOp.removeChild domParent d]
              | none =>
                  match f.child with
                  | some c => commitDeletionOps m fuel c domParent
                  | none => [])

/-- The `while (domParentFiber && !domParentFiber.dom)` walk on the arena,
from a fiber's parent upward. -/
def findDomParentM (m : Machine) : Nat → Option Nat → Option Nat
  | 0, _ => none
  | _, none => none
  | Nat.succ fuel, some p =>
      match getF m p with
      | none => none
      | some pf =>
          match pf.dom with
          | some d => some d
          | none => findDomParentM m fuel pf.parent

/-- The anchor search on the arena: first following sibling owning a
handle and not tagged PLACEMENT. -/
def findAnchorM (m : Machine) : Nat → Option Nat → Option Nat
  | 0, _ => none
  | _, none => none
  | Nat.succ fuel, some s =>
      match getF m s with
      | none => none
      | some sf =>
          match sf.dom with
          | some d =>
              if sf.effectTag = some EffTag.PLACEMENT then
                findAnchorM m fuel sf.sibling
              else some d
          | none => findAnchorM m fuel sf.sibling

/-- `commitWork` on the arena: per fiber, dispatch on the effect tag
(PLACEMENT applies attributes then inserts at the computed anchor; UPDATE
diffs old against new attributes; DELETION delegates to `commitDeletion`
and stops descending), then recurse into child and sibling.  The commit
phase never mutates fibers, so this is a pure trace. -/
def commitWorkOps (m : Machine) : Nat → Option Nat → List HostOp
  | 0, _ => []
  | _, none => []
  | Nat.succ fuel, some a =>
      match getF m a with
      | none => []
      | some f =>
          let domParent := (findDomParentM m m.heap.length f.parent).getD 0
          let ops :=
            match f.effectTag, f.dom with
            | some EffTag.PLACEMENT, some d =>
                updateDom d [] f.attrs
                  ++ [HostOp.insertBefore domParent d
                      (findAnchorM m m.heap.length f.sibling)]
            | some EffTag.UPDATE, some d =>
                updateDom d
                  (match f.alternate with
                    | some alt =>
                        match getF m alt with
                        | some af => af.attrs
                        | none => []
                    | none => []) f.attrs
            | some EffTag.DELETION, _ =>
                commitDeletionOps m m.heap.length a domParent
            | _, _ => []
          if f.effectTag = some EffTag.DELETION then ops
          else ops ++ commitWorkOps m fuel f.child
            ++ commitWorkOps m fuel f.sibling

/-- `commitRoot`: commit every queued deletion, then the tree under the
work-in-progress root; bump the commit counter, swap the committed root to
the work-in-progress root and clear the latter. -/
def commitRoot (m : Machine) : Machine × List HostOp :=
  let dops := m.deletions.flatMap
    (fun a => commitWorkOps m m.heap.length (some a))
  let cops := match m.wipRoot with
    | some r => commitWorkOps m m.heap.length ((getF m r).bind (·.child))
    | none => []
  ({ m with commitCount := m.commitCount + 1, currentRoot := m.wipRoot,
            wipRoot := none },
   dops ++ cops)

/-- `runEntries` on the arena's reduced hook records (cleanup slots). -/
def runEntriesM (hooks : List (Option Nat)) :
    List EffEntry → List HostOp × List (Option Nat)
  | [] => ([], hooks)
  | e :: rest =>
      let h := hooks.get? e.hookIdx
      let evs := (match h with
        | some (some c) => [HostOp.runCleanupOp c]
        | _ => []) ++ [HostOp.runEffectOp e.callback]
      let hooks2 := match h, e.ret with
        | some _, some c => hooks.set e.hookIdx (some c)
        | _, _ => hooks
      let r := runEntriesM hooks2 rest
      (evs ++ r.1, r.2)

/-- `executeEffects` on the arena: child subtree, then sibling subtree,
then the node's own queued effects; clears the queue and stores returned
cleanups. -/
def executeEffectsM (m : Machine) : Nat → Option Nat → Machine × List HostOp
  | 0, _ => (m, [])
  | _, none => (m, [])
  | Nat.succ fuel, some a =>
      match getF m a with
      | none => (m, [])
      | some f =>
          let rc := executeEffectsM m fuel f.child
          let rs := executeEffectsM rc.1 fuel f.sibling
          match getF rs.1 a with
          | none => (rs.1, rc.2 ++ rs.2)
          | some f2 =>
              let re := runEntriesM f2.hooks f2.effectCallbacks
              (setF rs.1 a { f2 with hooks := re.2, effectCallbacks := [] },
               rc.2 ++ rs.2 ++ re.1)

/-- One invocation of `workLoop`: run units while the pointer is non-null
and the budget lasts; when the pointer is null and a work-in-progress root
exists, commit and then execute the queued effects of the (new) committed
root. -/
def workLoopTick (env : ElemEnv) (b : Nat) (m : Machine) :
    Machine × List HostOp :=
  let r := loopUnits env b m
  if r.1.nextUnitOfWork.isNone && r.1.wipRoot.isSome then
    let rc := commitRoot r.1
    let re := executeEffectsM rc.1 rc.1.heap.length rc.1.currentRoot
    (re.1, r.2 ++ rc.2 ++ re.2)
  else r

/-- `render`: build the root fiber wrapping the container (its children
list is the single description), link its alternate to the committed root,
reset the deletions list, and point both the work-in-progress root and the
next-unit pointer at it. -/
def renderM (el : Elem) (containerTag : String) (containerDom : Nat)
    (m : Machine) : Machine :=
  let root : MFiber :=
    { type := FType.host containerTag, attrs := [], children := [el],
      dom := some containerDom, parent := none, child := none,
      sibling := none, alternate := m.currentRoot, effectTag := none,
      hooks := [], effectCallbacks := [] }
  let r := allocF m root
  { r.1 with wipRoot := some r.2, nextUnitOfWork := some r.2,
             deletions := [] }

/-- The empty machine (module load time). -/
def emptyMachine : Machine :=
  { heap := [], nextUnitOfWork := none, wipRoot := none, currentRoot := none,
    deletions := [], nextDom := 0, commitCount := 0 }

/-! ## Host-state semantics of the operation trace -/

/-- The host tree: allocated nodes, the mounted children lists, plain
properties and event listeners of each node. -/
structure HostState where
  nodes : List Nat
  childrenMap : List (Nat × List Nat)
  propsMap : List (Nat × (String × AVal))
  listeners : List (Nat × (String × AVal))
deriving DecidableEq, Repr

/-- Node creation ops: they allocate a detached node and touch nothing
mounted. -/
def isCreateOp : HostOp → Bool
  | HostOp.createElement _ _ => true
  | HostOp.createTextNode _ => true
  | _ => false

def applyHostOp (hs : HostState) : HostOp → HostState
  | HostOp.createElement h _ => { hs with nodes := hs.nodes ++ [h] }
  | HostOp.createTextNode h => { hs with nodes := hs.nodes ++ [h] }
  | HostOp.setProp h n v =>
      { hs with propsMap :=
          (hs.propsMap.filter (fun t => !(t.1 = h && t.2.1 = n)))
            ++ [(h, (n, v))] }
  | HostOp.addListener h e v =>
      { hs with listeners := hs.listeners ++ [(h, (e, v))] }
  | HostOp.removeListener h e v =>
      { hs with listeners := hs.listeners.filter (fun t => t ≠ (h, (e, v))) }
  | HostOp.insertBefore p c anchor =>
      { hs with childrenMap :=
          hs.childrenMap.map (fun t =>
            if t.1 = p then (t.1, insertBeforeList t.2 c anchor) else t) }
  | HostOp.removeChild p c =>
      { hs with childrenMap :=
          hs.childrenMap.map (fun t =>
            if t.1 = p then (t.1, t.2.filter (fun x => x ≠ c)) else t) }
  | HostOp.runCleanupOp _ => hs
  | HostOp.runEffectOp _ => hs

def applyHostOps (hs : HostState) (ops : List HostOp) : HostState :=
  ops.foldl applyHostOp hs

/-! # Theorems -/

/-! ## The reconciler -/

theorem reconcile_nil_chain (olds : List RFiber) :
    (reconcileChildren olds []).1 = [] := by
  simp [reconcileChildren]

theorem reconcile_chain_tags :
    ∀ (els : List Elem) (olds : List RFiber) (f : RFiber),
      f ∈ (reconcileChildren olds els).1 →
      f.effectTag = some EffTag.UPDATE ∨ f.effectTag = some EffTag.PLACEMENT := by
  intro els
  induction els with
  | nil =>
      intro olds f hf
      rw [reconcile_nil_chain] at hf
      cases hf
  | cons e es ih =>
      intro olds f hf
      cases olds with
      | nil =>
          simp only [reconcileChildren] at hf
          rcases List.mem_cons.mp hf with rfl | hf
          · right; rfl
          · exact ih [] f hf
      | cons o os =>
          simp only [reconcileChildren] at hf
          by_cases ht : e.type = o.type
          · rw [if_pos ht] at hf
            rcases List.mem_cons.mp hf with rfl | hf
            · left; rfl
            · exact ih os f hf
          · rw [if_neg ht] at hf
            rcases List.mem_cons.mp hf with rfl | hf
            · right; rfl
            · exact ih os f hf

theorem reconcile_get_update :
    ∀ (i : Nat) (olds : List RFiber) (els : List Elem) (e : Elem) (o : RFiber),
      els.get? i = some e → olds.get? i = some o → e.type = o.type →
      (reconcileChildren olds els).1.get? i = some (updateFiber o e) := by
  intro i
  induction i with
  | zero =>
      intro olds els e o he ho ht
      cases els with
      | nil => cases he
      | cons e0 es =>
          cases olds with
          | nil => cases ho
          | cons o0 os =>
              obtain rfl : e0 = e := by simpa using he
              obtain rfl : o0 = o := by simpa using ho
              simp [reconcileChildren, ht]
  | succ n ih =>
      intro olds els e o he ho ht
      cases els with
      | nil => cases he
      | cons e0 es =>
          cases olds with
          | nil => cases ho
          | cons o0 os =>
              by_cases h0 : e0.type = o0.type
              · simpa [reconcileChildren, h0] using ih os es e o he ho ht
              · simpa [reconcileChildren, h0] using ih os es e o he ho ht

theorem reconcile_get_placement :
    ∀ (i : Nat) (olds : List RFiber) (els : List Elem) (e : Elem) (o : RFiber),
      els.get? i = some e → olds.get? i = some o → e.type ≠ o.type →
      (reconcileChildren olds els).1.get? i = some (placementFiber e) := by
  intro i
  induction i with
  | zero =>
      intro olds els e o he ho ht
      cases els with
      | nil => cases he
      | cons e0 es =>
          cases olds with
          | nil => cases ho
          | cons o0 os =>
              obtain rfl : e0 = e := by simpa using he
              obtain rfl : o0 = o := by simpa using ho
              simp [reconcileChildren, ht]
  | succ n ih =>
      intro olds els e o he ho ht
      cases els with
      | nil => cases he
      | cons e0 es =>
          cases olds with
          | nil => cases ho
          | cons o0 os =>
              by_cases h0 : e0.type = o0.type
              · simpa [reconcileChildren, h0] using ih os es e o he ho ht
              · simpa [reconcileChildren, h0] using ih os es e o he ho ht

theorem reconcile_deletion_mem :
    ∀ (i : Nat) (olds : List RFiber) (els : List Elem) (e : Elem) (o : RFiber),
      els.get? i = some e → olds.get? i = some o → e.type ≠ o.type →
      RFiber.withTag o EffTag.DELETION ∈ (reconcileChildren olds els).2 := by
  intro i
  induction i with
  | zero =>
      intro olds els e o he ho ht
      cases els with
      | nil => cases he
      | cons e0 es =>
          cases olds with
          | nil => cases ho
          | cons o0 os =>
              obtain rfl : e0 = e := by simpa using he
              obtain rfl : o0 = o := by simpa using ho
              simp [reconcileChildren, ht]
  | succ n ih =>
      intro olds els e o he ho ht
      cases els with
      | nil => cases he
      | cons e0 es =>
          cases olds with
          | nil => cases ho
          | cons o0 os =>
              by_cases h0 : e0.type = o0.type
              · simpa [reconcileChildren, h0] using ih os es e o he ho ht
              · simp [reconcileChildren, h0]
                exact Or.inr (ih os es e o he ho ht)

theorem reconcile_agree :
    ∀ (olds : List RFiber) (els : List Elem),
      olds.length = els.length →
      (∀ i e o, els.get? i = some e → olds.get? i = some o →
        e.type = o.type) →
      (∀ f ∈ (reconcileChildren olds els).1,
         f.effectTag = some EffTag.UPDATE)
        ∧ (reconcileChildren olds els).2 = [] := by
  intro olds
  induction olds with
  | nil =>
      intro els hl _
      cases els with
      | nil =>
          constructor
          · intro f hf
            rw [reconcile_nil_chain] at hf
            cases hf
          · rfl
      | cons e es => exact absurd hl (by simp)
  | cons o os ih =>
      intro els hl hag
      cases els with
      | nil => exact absurd hl (by simp)
      | cons e es =>
          have ht : e.type = o.type := hag 0 e o rfl rfl
          have ihr := ih es (by simpa using hl)
            (fun i e2 o2 he ho => hag (i + 1) e2 o2 he ho)
          constructor
          · intro f hf
            simp only [reconcileChildren, ht, if_pos] at hf
            rcases List.mem_cons.mp hf with rfl | hf
            · rfl
            · exact ihr.1 f hf
          · simp [reconcileChildren, ht, ihr.2]

/-- C1.  Whenever position `i` exists in both the old child chain and the
new description list with equal type tags, `reconcileChildren` builds at
position `i` an UPDATE fiber that reuses the alternate's host handle,
carries the new description's attributes (and child descriptions), and
links `alternate` to the old fiber; and for two same-length lists agreeing
in type at every position, every produced fiber is an UPDATE (no PLACEMENT
is built) and the deletions list stays empty (no DELETION is
produced). -/
theorem claim_C1 (olds : List RFiber) (els : List Elem) :
    (∀ i e o, els.get? i = some e → olds.get? i = some o →
      e.type = o.type →
      (reconcileChildren olds els).1.get? i =
        some (RFiber.mk o.type e.attrs e.children o.dom (some o)
          (some EffTag.UPDATE)))
    ∧ (olds.length = els.length →
      (∀ i e o, els.get? i = some e → olds.get? i = some o →
        e.type = o.type) →
      (∀ f ∈ (reconcileChildren olds els).1,
         f.effectTag = some EffTag.UPDATE)
        ∧ (reconcileChildren olds els).2 = []) := by
  constructor
  · intro i e o he ho ht
    exact reconcile_get_update i olds els e o he ho ht
  · intro hl hag
    exact reconcile_agree olds els hl hag

/-- Witness for C1 at a concrete one-position reconciliation: the single
`div` old fiber with handle 7 against a single `div` description yields
exactly one UPDATE fiber reusing handle 7 and no deletion. -/
theorem claim_C1_witness :
    (reconcileChildren
        [RFiber.mk (FType.host "div") [("id", AVal.str "old")] [] (some 7)
          none none]
        [Elem.mk (FType.host "div") [("id", AVal.str "new")] []]).1.get? 0
      = some (RFiber.mk (FType.host "div") [("id", AVal.str "new")] []
          (some 7)
          (some (RFiber.mk (FType.host "div") [("id", AVal.str "old")] []
            (some 7) none none))
          (some EffTag.UPDATE))
    ∧ (reconcileChildren
        [RFiber.mk (FType.host "div") [("id", AVal.str "old")] [] (some 7)
          none none]
        [Elem.mk (FType.host "div") [("id", AVal.str "new")] []]).2 = [] := by
  have h := claim_C1
    [RFiber.mk (FType.host "div") [("id", AVal.str "old")] [] (some 7)
      none none]
    [Elem.mk (FType.host "div") [("id", AVal.str "new")] []]
  refine ⟨h.1 0 (Elem.mk (FType.host "div") [("id", AVal.str "new")] [])
    (RFiber.mk (FType.host "div") [("id", AVal.str "old")] [] (some 7)
      none none) rfl rfl rfl, (h.2 rfl ?_).2⟩
  intro i e o he ho
  cases i with
  | zero => cases he; cases ho; rfl
  | succ n => simp at he

/-- C6.  When position `i` exists on both sides but the type tags differ,
both branches fire at that position: the new chain carries at `i` a
PLACEMENT fiber with no host handle and a null alternate, the old fiber is
tagged DELETION and appended to the deletions list, and no DELETION-tagged
fiber (in particular not the old fiber) is ever linked into the new
sibling chain, whose members are all tagged UPDATE or PLACEMENT. -/
theorem claim_C6 (olds : List RFiber) (els : List Elem) (i : Nat)
    (e : Elem) (o : RFiber)
    (he : els.get? i = some e) (ho : olds.get? i = some o)
    (ht : e.type ≠ o.type) :
    (reconcileChildren olds els).1.get? i =
      some (RFiber.mk e.type e.attrs e.children none none
        (some EffTag.PLACEMENT))
    ∧ RFiber.withTag o EffTag.DELETION ∈ (reconcileChildren olds els).2
    ∧ ∀ f ∈ (reconcileChildren olds els).1,
        f.effectTag = some EffTag.UPDATE
          ∨ f.effectTag = some EffTag.PLACEMENT :=
  ⟨reconcile_get_placement i olds els e o he ho ht,
   reconcile_deletion_mem i olds els e o he ho ht,
   fun f hf => reconcile_chain_tags els olds f hf⟩

/-- Witness for C6: a `div` fiber replaced by an `h1` description yields a
PLACEMENT fiber at position 0 and queues the DELETION-tagged old fiber. -/
theorem claim_C6_witness :
    (reconcileChildren
        [RFiber.mk (FType.host "div") [] [] (some 3) none none]
        [Elem.mk (FType.host "h1") [("id", AVal.str "t")] []]).1.get? 0
      = some (RFiber.mk (FType.host "h1") [("id", AVal.str "t")] [] none
          none (some EffTag.PLACEMENT))
    ∧ RFiber.withTag
        (RFiber.mk (FType.host "div") [] [] (some 3) none none)
        EffTag.DELETION
      ∈ (reconcileChildren
          [RFiber.mk (FType.host "div") [] [] (some 3) none none]
          [Elem.mk (FType.host "h1") [("id", AVal.str "t")] []]).2 := by
  have h := claim_C6
    [RFiber.mk (FType.host "div") [] [] (some 3) none none]
    [Elem.mk (FType.host "h1") [("id", AVal.str "t")] []]
    0
    (Elem.mk (FType.host "h1") [("id", AVal.str "t")] [])
    (RFiber.mk (FType.host "div") [] [] (some 3) none none)
    rfl rfl (by decide)
  exact ⟨h.1, h.2.1⟩

/-! ## The attribute differ -/

theorem event_isProperty (k : String) (h : isEvent k = true) :
    isProperty k = true := by
  unfold isProperty
  rcases eq_or_ne k "children" with rfl | h1
  · exact absurd h (by decide)
  rcases eq_or_ne k "__source" with rfl | h2
  · exact absurd h (by decide)
  rcases eq_or_ne k "__self" with rfl | h3
  · exact absurd h (by decide)
  simp [h1, h2, h3]

/-- Counterexample to C4 as stated: for the attribute pair that removes a
previously present `onClick` handler, `updateDom` emits the plain-attribute
blanking operation `dom.onClick = ''` for the event-prefixed name — so
event names are NOT routed to the binding operations *instead of* the
plain-attribute operations. -/
theorem claim_C4_counterexample :
    isEvent "onClick" = true
    ∧ HostOp.setProp 0 "onClick" (AVal.str "")
        ∈ updateDom 0 [("onClick", AVal.fn 1)] []
    ∧ HostOp.removeListener 0 "click" (AVal.fn 1)
        ∈ updateDom 0 [("onClick", AVal.fn 1)] [] := by
  decide

/-- C4 amended.  Event-prefixed attribute names are routed to the
event-binding operations, but additionally (not instead): because
`isProperty` excludes only `children`/`__source`/`__self`, a new or
changed event-prefixed attribute is also passed to the plain-attribute set
operation, and a removed one is also blanked by it; the `children`
attribute is never passed to any host attribute or binding operation. -/
theorem claim_C4 (h : Nat) (prev next : List (String × AVal)) :
    (∀ v, HostOp.setProp h "children" v ∉ updateDom h prev next)
    ∧ (∀ k, k ∈ keysOf next → isEvent k = true →
        isNew prev next k = true →
        HostOp.addListener h (eventTypeOf k)
            ((lookupProp next k).getD AVal.null) ∈ updateDom h prev next
          ∧ HostOp.setProp h k ((lookupProp next k).getD AVal.null)
              ∈ updateDom h prev next)
    ∧ (∀ k, k ∈ keysOf prev → isEvent k = true →
        lookupProp next k = none →
        HostOp.removeListener h (eventTypeOf k)
            ((lookupProp prev k).getD AVal.null) ∈ updateDom h prev next
          ∧ HostOp.setProp h k (AVal.str "") ∈ updateDom h prev next) := by
  refine ⟨?_, ?_, ?_⟩
  · intro v hv
    simp only [updateDom, List.mem_append, List.mem_map, List.mem_filter] at hv
    rcases hv with ((⟨k, _, hk⟩ | ⟨k, hk2, hk⟩) | ⟨k, hk2, hk⟩) | ⟨k, _, hk⟩
    · cases hk
    · have hke : k = "children" := (HostOp.setProp.inj hk).2.1
      subst hke
      have hkp := hk2.2
      simp [isProperty] at hkp
    · have hke : k = "children" := (HostOp.setProp.inj hk).2.1
      subst hke
      have hkp := hk2.2
      simp [isProperty] at hkp
    · cases hk
  · intro k hk hev hnew
    constructor
    · simp only [updateDom, List.mem_append]
      refine Or.inr (List.mem_map.mpr ⟨k, List.mem_filter.mpr ⟨hk, ?_⟩, rfl⟩)
      simp [hev, hnew]
    · simp only [updateDom, List.mem_append]
      refine Or.inl (Or.inr (List.mem_map.mpr
        ⟨k, List.mem_filter.mpr ⟨hk, ?_⟩, rfl⟩))
      simp [event_isProperty k hev, hnew]
  · intro k hk hev hgone
    constructor
    · simp only [updateDom, List.mem_append]
      refine Or.inl (Or.inl (Or.inl (List.mem_map.mpr
        ⟨k, List.mem_filter.mpr ⟨hk, ?_⟩, rfl⟩)))
      simp [hev, hgone]
    · simp only [updateDom, List.mem_append]
      refine Or.inl (Or.inl (Or.inr (List.mem_map.mpr
        ⟨k, List.mem_filter.mpr ⟨hk, ?_⟩, rfl⟩)))
      simp [event_isProperty k hev, isGone, hgone]

/-- Witness for the amended C4 at concrete props: a fresh `onClick` goes
to `addEventListener` and to the plain set; `children` generates no
operation. -/
theorem claim_C4_witness :
    HostOp.addListener 0 "click" (AVal.fn 2)
        ∈ updateDom 0 [] [("onClick", AVal.fn 2), ("children", AVal.null)]
    ∧ HostOp.setProp 0 "onClick" (AVal.fn 2)
        ∈ updateDom 0 [] [("onClick", AVal.fn 2), ("children", AVal.null)]
    ∧ HostOp.setProp 0 "children" AVal.null
        ∉ updateDom 0 [] [("onClick", AVal.fn 2), ("children", AVal.null)] := by
  have h := claim_C4 0 [] [("onClick", AVal.fn 2), ("children", AVal.null)]
  have h2 := h.2.1 "onClick" (by decide) (by decide) (by decide)
  exact ⟨h2.1, h2.2, h.1 AVal.null⟩

/-! ## The hooks runtime -/

/-- C3.  When the prospective next value (the action itself, or the action
applied to the current value for a function action) is `Object.is`-equal
to the cell's current value, the updater is a no-op: the hook's
pending-update queue, the work-in-progress root, the scheduler's
next-unit pointer and the deletions list are all unchanged and no new
pass is scheduled. -/
theorem claim_C3 {V : Type} [DecidableEq V] (hook : StateHook V) (g : Sched)
    (action : Action V)
    (h : sameValue hook.state (applyAction action hook.state) = true) :
    setState hook g action = (hook, g)
    ∧ (setState hook g action).1.queue = hook.queue
    ∧ (setState hook g action).2.wipRoot = g.wipRoot
    ∧ (setState hook g action).2.nextUnitOfWork = g.nextUnitOfWork
    ∧ (setState hook g action).2.deletions = g.deletions := by
  have he : setState hook g action = (hook, g) := by
    unfold setState
    simp [h]
  exact ⟨he, by rw [he], by rw [he], by rw [he], by rw [he]⟩

/-- Witness for C3: replacing the value 3 by 3 bails out and leaves the
whole scheduler state untouched. -/
theorem claim_C3_witness :
    setState (V := Nat) ⟨3, []⟩
        ⟨none,
         some (RFiber.mk (FType.host "DIV") [] [] (some 0) none none),
         none, []⟩
        (Action.set 3)
      = (⟨3, []⟩,
         ⟨none,
          some (RFiber.mk (FType.host "DIV") [] [] (some 0) none none),
          none, []⟩) :=
  (claim_C3 ⟨3, []⟩
    ⟨none, some (RFiber.mk (FType.host "DIV") [] [] (some 0) none none),
     none, []⟩
    (Action.set 3) (by decide)).1

/-- C8.  On a reused fiber whose alternate holds a same-index state cell,
`useState` computes the returned value by applying every queued action of
the alternate cell, in enqueue order, to the alternate's stored state —
a function action is applied to the previous value, a literal action
replaces it — and the new cell always starts with an empty queue. -/
theorem claim_C8 {V : Type} (hs : List (StateHook V)) (idx : Nat)
    (initial : V) (o : StateHook V) (h : hs.get? idx = some o) :
    (useState (some hs) idx initial).state
      = o.queue.foldl (fun s a => applyAction a s) o.state
    ∧ (useState (some hs) idx initial).queue = []
    ∧ (∀ (f : V → V) v, applyAction (Action.fnAct f) v = f v)
    ∧ (∀ w v : V, applyAction (Action.set w) v = w) := by
  rw [List.get?_eq_getElem?] at h
  refine ⟨?_, ?_, fun f v => rfl, fun w v => rfl⟩ <;> simp [useState, h]

/-- Witness for C8: a cell stored as 1 with queue `[set 5, +1]` computes
6 and restarts with an empty queue. -/
theorem claim_C8_witness :
    (useState (some [⟨1, [Action.set 5, Action.fnAct (fun x => x + 1)]⟩])
        0 (0 : Nat)).state = 6
    ∧ (useState (some [⟨1, [Action.set 5, Action.fnAct (fun x => x + 1)]⟩])
        0 (0 : Nat)).queue = [] := by
  have h := claim_C8
    [⟨1, [Action.set 5, Action.fnAct (fun x => x + 1)]⟩] 0 (0 : Nat)
    ⟨1, [Action.set 5, Action.fnAct (fun x => x + 1)]⟩ rfl
  refine ⟨?_, h.2.1⟩
  rw [h.1]
  rfl

/-- C9.  `useEffect` queues the callback for post-commit execution exactly
when `hasDepsChanged` reports a change, and the comparison rule is: no
previous dependency list → changed; no new dependency list supplied →
changed; different lengths → changed; otherwise changed iff some index
fails the element-wise `Object.is` comparison — so deps `[1,2]` then
`[1,2]` does not re-fire while `[1,2]` then `[1,3]` does. -/
theorem claim_C9 {V : Type} [DecidableEq V]
    (altHooks : Option (List (EffectHook V))) (idx : Nat)
    (ecs : List (Nat × EffectHook V)) (hooks : List (EffectHook V))
    (cb : Nat) (deps : Option (List V)) :
    (altHookAt altHooks idx = none →
      (useEffect altHooks idx ecs hooks cb deps).1
        = ecs ++ [(cb, ⟨deps, none⟩)])
    ∧ (∀ oh, altHookAt altHooks idx = some oh →
        (hasDepsChanged oh.deps deps = true →
          (useEffect altHooks idx ecs hooks cb deps).1
            = ecs ++ [(cb, ⟨deps, oh.cleanup⟩)])
        ∧ (hasDepsChanged oh.deps deps = false →
          (useEffect altHooks idx ecs hooks cb deps).1 = ecs))
    ∧ (∀ d : Option (List V), hasDepsChanged none d = true)
    ∧ (∀ p : List V, hasDepsChanged (some p) none = true)
    ∧ (∀ p n : List V, p.length ≠ n.length →
        hasDepsChanged (some p) (some n) = true)
    ∧ (∀ p n : List V, p.length = n.length →
        (hasDepsChanged (some p) (some n) = true ↔
          ∃ i v w, p.get? i = some v ∧ n.get? i = some w ∧ v ≠ w))
    ∧ hasDepsChanged (V := Nat) (some [1, 2]) (some [1, 2]) = false
    ∧ hasDepsChanged (V := Nat) (some [1, 2]) (some [1, 3]) = true := by
  refine ⟨?_, ?_, fun d => rfl, fun p => rfl, ?_, ?_, by decide, by decide⟩
  · intro hnone
    simp [useEffect, hnone, hasDepsChanged]
  · intro oh hsome
    constructor
    · intro hch
      simp [useEffect, hsome, hch]
    · intro hch
      simp [useEffect, hsome, hch]
  · intro p n hlen
    show (if p.length ≠ n.length then true
      else (p.zip n).any fun pr => !sameValue pr.1 pr.2) = true
    rw [if_pos hlen]
  · intro p n hlen
    have hd : hasDepsChanged (some p) (some n)
        = (p.zip n).any fun pr => !sameValue pr.1 pr.2 := by
      show (if p.length ≠ n.length then true
        else (p.zip n).any fun pr => !sameValue pr.1 pr.2) = _
      rw [if_neg (fun hc => hc hlen)]
    rw [hd]
    constructor
    · intro h
      obtain ⟨x, hx, hpx⟩ := List.any_eq_true.mp h
      obtain ⟨i, hi⟩ := List.mem_iff_get?.mp hx
      obtain ⟨h1, h2⟩ := (List.get?_zip_eq_some p n x i).mp hi
      refine ⟨i, x.1, x.2, h1, h2, ?_⟩
      simpa [sameValue] using hpx
    · rintro ⟨i, v, w, hv, hw, hne⟩
      apply List.any_eq_true.mpr
      refine ⟨(v, w), List.mem_iff_get?.mpr
        ⟨i, (List.get?_zip_eq_some p n (v, w) i).mpr ⟨hv, hw⟩⟩, ?_⟩
      simp [sameValue, hne]

/-- Witness for C9: with stored deps `[1,2]`, new deps `[1,3]` queue the
callback (carrying over cleanup 9) and new deps `[1,2]` do not. -/
theorem claim_C9_witness :
    (useEffect (V := Nat) (some [⟨some [1, 2], some 9⟩]) 0 [] [] 4
        (some [1, 3])).1 = [(4, ⟨some [1, 3], some 9⟩)]
    ∧ (useEffect (V := Nat) (some [⟨some [1, 2], some 9⟩]) 0 [] [] 4
        (some [1, 2])).1 = [] := by
  have h1 := ((claim_C9 (V := Nat) (some [⟨some [1, 2], some 9⟩]) 0 [] [] 4
    (some [1, 3])).2.1 ⟨some [1, 2], some 9⟩ rfl).1 (by decide)
  have h2 := ((claim_C9 (V := Nat) (some [⟨some [1, 2], some 9⟩]) 0 [] [] 4
    (some [1, 2])).2.1 ⟨some [1, 2], some 9⟩ rfl).2 (by decide)
  exact ⟨by simpa using h1, h2⟩

/-! ## The post-commit effect executor -/

/-- C10.  The executor runs a fiber's own queued effects only after every
effect of its child subtree and of its following-sibling subtrees (the
recursion visits child, then sibling, then the node); each executed entry
invokes the hook's previously stored cleanup before the new callback; and
the cleanup returned by the callback is stored on the hook for the next
pass. -/
theorem claim_C10 (hooks : List (EffectHook Nat)) (effects : List EffEntry)
    (c s : FibTree) :
    (executeEffects (FibTree.node hooks effects c s)).1
      = (executeEffects c).1 ++ (executeEffects s).1
        ++ (runEntries hooks effects).1
    ∧ (∀ k ev, (runEntries hooks effects).1.get? k = some ev →
        (executeEffects (FibTree.node hooks effects c s)).1.get?
          ((executeEffects c).1.length + (executeEffects s).1.length + k)
          = some ev)
    ∧ (∀ e rest hh, hooks.get? e.hookIdx = some hh →
        (runEntries hooks (e :: rest)).1
          = (match hh.cleanup with
              | some cl => [EffEvent.cleanup cl]
              | none => []) ++ EffEvent.callback e.callback ::
            (runEntries (match e.ret with
              | some c2 => hooks.set e.hookIdx { hh with cleanup := some c2 }
              | none => hooks) rest).1)
    ∧ (∀ e hh c2, hooks.get? e.hookIdx = some hh → e.ret = some c2 →
        (runEntries hooks [e]).2.get? e.hookIdx
          = some { hh with cleanup := some c2 }) := by
  have h1 : (executeEffects (FibTree.node hooks effects c s)).1
      = (executeEffects c).1 ++ (executeEffects s).1
        ++ (runEntries hooks effects).1 := rfl
  refine ⟨h1, ?_, ?_, ?_⟩
  · intro k ev hk
    rw [h1, List.get?_append_right (by simp), List.length_append]
    simpa using hk
  · intro e rest hh hhook
    simp only [runEntries, hhook]
    cases hr : e.ret <;> simp [hr]
  · intro e hh c2 hhook hret
    rw [List.get?_eq_getElem?] at hhook
    simp [runEntries, hhook, hret, List.getElem?_set_self']

/-- Witness for C10 on a two-node tree: the child's callback runs first,
then the node's stored cleanup, then the node's callback; the returned
cleanup 8 replaces the stored cleanup 7. -/
theorem claim_C10_witness :
    (executeEffects (FibTree.node [⟨none, some 7⟩] [⟨11, some 8, 0⟩]
        (FibTree.node [] [⟨21, none, 0⟩] FibTree.nil FibTree.nil)
        FibTree.nil)).1
      = [EffEvent.callback 21, EffEvent.cleanup 7, EffEvent.callback 11]
    ∧ (runEntries [⟨none, some 7⟩] [⟨11, some 8, 0⟩]).2.get? 0
      = some ⟨none, some 8⟩ := by
  have h := claim_C10 [⟨none, some 7⟩] [⟨11, some 8, 0⟩]
    (FibTree.node [] [⟨21, none, 0⟩] FibTree.nil FibTree.nil) FibTree.nil
  refine ⟨?_, h.2.2.2 ⟨11, some 8, 0⟩ ⟨none, some 7⟩ 8 rfl rfl⟩
  rw [h.1]
  rfl

/-! ## Commit-phase placement -/

/-- C7.  A PLACEMENT fiber owning a host handle is committed by applying
its attributes and inserting the handle under the nearest ancestor that
owns a handle, anchored at the first following sibling owning a handle and
not itself freshly placed (handle-less and PLACEMENT-tagged siblings are
skipped); a missing anchor makes `insertBefore` append at the end (a
defined, total case, not an error), and a present anchor places the handle
immediately before it.  The last conjunct states the same for the arena
`commitWork`. -/
theorem claim_C7 (anc : List (Option Nat)) (d : Nat)
    (attrs : List (String × AVal)) (sibs : List CFiber) (p : Nat)
    (hp : findDomParentDom anc = some p) :
    commitPlacementOps anc d attrs sibs
      = updateDom d [] attrs
        ++ [HostOp.insertBefore p d (findAnchor sibs)]
    ∧ findAnchor sibs
      = (sibs.find? (fun s => s.dom.isSome
          && !(s.effectTag = some EffTag.PLACEMENT))).bind (·.dom)
    ∧ (∀ (l : List Nat) c, insertBeforeList l c none = l ++ [c])
    ∧ (∀ (l1 l2 : List Nat) c a, a ∉ l1 →
        insertBeforeList (l1 ++ a :: l2) c (some a) = l1 ++ c :: a :: l2)
    ∧ (∀ (m : Machine) (fuel a : Nat) (f : MFiber), getF m a = some f →
        f.effectTag = some EffTag.PLACEMENT → f.dom = some d →
        commitWorkOps m (fuel + 1) (some a)
          = (updateDom d [] f.attrs
              ++ [HostOp.insertBefore
                  ((findDomParentM m m.heap.length f.parent).getD 0) d
                  (findAnchorM m m.heap.length f.sibling)])
            ++ commitWorkOps m fuel f.child
            ++ commitWorkOps m fuel f.sibling) := by
  refine ⟨?_, ?_, fun l c => rfl, ?_, ?_⟩
  · unfold commitPlacementOps
    rw [hp]
    rfl
  · clear hp
    induction sibs with
    | nil => rfl
    | cons s rest ih =>
        cases hd : s.dom with
        | none => simp [findAnchor, hd, List.find?, ih]
        | some d2 =>
            by_cases hpl : s.effectTag = some EffTag.PLACEMENT
            · simp [findAnchor, hd, hpl, List.find?, ih]
            · simp [findAnchor, hd, hpl, List.find?]
  · intro l1 l2 c a ha
    induction l1 with
    | nil => simp [insertBeforeList]
    | cons x xs ih =>
        have hxa : x ≠ a := fun hx => ha (hx ▸ List.mem_cons_self x xs)
        have ha2 : a ∉ xs := fun hx => ha (List.mem_cons_of_mem x hx)
        simpa [insertBeforeList, hxa] using ih ha2
  · intro m fuel a f hget hpl hdom
    simp only [commitWorkOps, hget, hpl, hdom]
    simp

/-- Witness for C7: ancestors `[none, some 10]` give dom parent 10; the
sibling chain skips a handle-less fiber and a freshly placed one and
anchors at handle 6; and inserting with no anchor appends. -/
theorem claim_C7_witness :
    commitPlacementOps [none, some 10] 3 [("id", AVal.str "x")]
        [⟨none, none⟩, ⟨some 5, some EffTag.PLACEMENT⟩,
         ⟨some 6, some EffTag.UPDATE⟩]
      = [HostOp.setProp 3 "id" (AVal.str "x"),
         HostOp.insertBefore 10 3 (some 6)]
    ∧ insertBeforeList [4, 5] 3 none = [4, 5, 3] := by
  have h := claim_C7 [none, some 10] 3 [("id", AVal.str "x")]
    [⟨none, none⟩, ⟨some 5, some EffTag.PLACEMENT⟩,
     ⟨some 6, some EffTag.UPDATE⟩] 10 rfl
  refine ⟨?_, h.2.2.1 [4, 5] 3⟩
  rw [h.1]
  rfl

/-! ## The scheduler machine: preservation lemmas

The render-phase functions never touch the commit-owned scheduler fields:
`wipRoot`, `currentRoot` and the commit counter are only written by
`commitRoot` (and by `setState`/`render`, which are not part of the work
loop). -/

@[simp] theorem setF_wipRoot (m : Machine) (a : Nat) (f : MFiber) :
    (setF m a f).wipRoot = m.wipRoot := rfl

@[simp] theorem setF_currentRoot (m : Machine) (a : Nat) (f : MFiber) :
    (setF m a f).currentRoot = m.currentRoot := rfl

@[simp] theorem setF_commitCount (m : Machine) (a : Nat) (f : MFiber) :
    (setF m a f).commitCount = m.commitCount := rfl

@[simp] theorem markDeletion_wipRoot (m : Machine) (oa : Nat) :
    (markDeletion m oa).wipRoot = m.wipRoot := by
  unfold markDeletion
  repeat' first
    | rfl
    | split

@[simp] theorem markDeletion_currentRoot (m : Machine) (oa : Nat) :
    (markDeletion m oa).currentRoot = m.currentRoot := by
  unfold markDeletion
  repeat' first
    | rfl
    | split

@[simp] theorem markDeletion_commitCount (m : Machine) (oa : Nat) :
    (markDeletion m oa).commitCount = m.commitCount := by
  unfold markDeletion
  repeat' first
    | rfl
    | split

@[simp] theorem linkNewFiber_wipRoot (m : Machine) (wipA : Nat)
    (prev : Option Nat) (isFirst : Bool) (newA : Option Nat) (ex : Bool) :
    (linkNewFiber m wipA prev isFirst newA ex).wipRoot = m.wipRoot := by
  unfold linkNewFiber
  repeat' first
    | rfl
    | split

@[simp] theorem linkNewFiber_currentRoot (m : Machine) (wipA : Nat)
    (prev : Option Nat) (isFirst : Bool) (newA : Option Nat) (ex : Bool) :
    (linkNewFiber m wipA prev isFirst newA ex).currentRoot
      = m.currentRoot := by
  unfold linkNewFiber
  repeat' first
    | rfl
    | split

@[simp] theorem linkNewFiber_commitCount (m : Machine) (wipA : Nat)
    (prev : Option Nat) (isFirst : Bool) (newA : Option Nat) (ex : Bool) :
    (linkNewFiber m wipA prev isFirst newA ex).commitCount
      = m.commitCount := by
  unfold linkNewFiber
  repeat' first
    | rfl
    | split

@[simp] theorem deleteRestM_wipRoot :
    ∀ (os : List Nat) (m : Machine),
      (deleteRestM m os).wipRoot = m.wipRoot := by
  intro os
  induction os with
  | nil => intro m; rfl
  | cons oa os ih => intro m; simp [deleteRestM, ih]

@[simp] theorem deleteRestM_currentRoot :
    ∀ (os : List Nat) (m : Machine),
      (deleteRestM m os).currentRoot = m.currentRoot := by
  intro os
  induction os with
  | nil => intro m; rfl
  | cons oa os ih => intro m; simp [deleteRestM, ih]

@[simp] theorem deleteRestM_commitCount :
    ∀ (os : List Nat) (m : Machine),
      (deleteRestM m os).commitCount = m.commitCount := by
  intro os
  induction os with
  | nil => intro m; rfl
  | cons oa os ih => intro m; simp [deleteRestM, ih]

theorem reconcileGo_wipRoot (wipA : Nat) :
    ∀ (els : List Elem) (olds : List Nat) (m : Machine) (prev : Option Nat)
      (isFirst : Bool),
      (reconcileGo wipA m olds els prev isFirst).wipRoot = m.wipRoot := by
  intro els
  induction els with
  | nil =>
      intro olds m prev isFirst
      cases olds with
      | nil => rfl
      | cons oa os => simp [reconcileGo]
  | cons e es ih =>
      intro olds m prev isFirst
      cases olds with
      | nil => simp [reconcileGo, ih, allocF]
      | cons oa os =>
          cases hg : getF m oa with
          | none => simp [reconcileGo, hg, ih, allocF]
          | some oldF =>
              by_cases ht : e.type = oldF.type <;>
                simp [reconcileGo, hg, ht, ih, allocF]

theorem reconcileGo_currentRoot (wipA : Nat) :
    ∀ (els : List Elem) (olds : List Nat) (m : Machine) (prev : Option Nat)
      (isFirst : Bool),
      (reconcileGo wipA m olds els prev isFirst).currentRoot
        = m.currentRoot := by
  intro els
  induction els with
  | nil =>
      intro olds m prev isFirst
      cases olds with
      | nil => rfl
      | cons oa os => simp [reconcileGo]
  | cons e es ih =>
      intro olds m prev isFirst
      cases olds with
      | nil => simp [reconcileGo, ih, allocF]
      | cons oa os =>
          cases hg : getF m oa with
          | none => simp [reconcileGo, hg, ih, allocF]
          | some oldF =>
              by_cases ht : e.type = oldF.type <;>
                simp [reconcileGo, hg, ht, ih, allocF]

theorem reconcileGo_commitCount (wipA : Nat) :
    ∀ (els : List Elem) (olds : List Nat) (m : Machine) (prev : Option Nat)
      (isFirst : Bool),
      (reconcileGo wipA m olds els prev isFirst).commitCount
        = m.commitCount := by
  intro els
  induction els with
  | nil =>
      intro olds m prev isFirst
      cases olds with
      | nil => rfl
      | cons oa os => simp [reconcileGo]
  | cons e es ih =>
      intro olds m prev isFirst
      cases olds with
      | nil => simp [reconcileGo, ih, allocF]
      | cons oa os =>
          cases hg : getF m oa with
          | none => simp [reconcileGo, hg, ih, allocF]
          | some oldF =>
              by_cases ht : e.type = oldF.type <;>
                simp [reconcileGo, hg, ht, ih, allocF]

@[simp] theorem reconcileChildrenM_wipRoot (m : Machine) (a : Nat)
    (els : List Elem) :
    (reconcileChildrenM m a els).wipRoot = m.wipRoot :=
  reconcileGo_wipRoot a els _ m none true

@[simp] theorem reconcileChildrenM_currentRoot (m : Machine) (a : Nat)
    (els : List Elem) :
    (reconcileChildrenM m a els).currentRoot = m.currentRoot :=
  reconcileGo_currentRoot a els _ m none true

@[simp] theorem reconcileChildrenM_commitCount (m : Machine) (a : Nat)
    (els : List Elem) :
    (reconcileChildrenM m a els).commitCount = m.commitCount :=
  reconcileGo_commitCount a els _ m none true

@[simp] theorem setF_nextUnitOfWork (m : Machine) (a : Nat) (f : MFiber) :
    (setF m a f).nextUnitOfWork = m.nextUnitOfWork := rfl

@[simp] theorem performUnit_wipRoot (env : ElemEnv) (m : Machine) (a : Nat) :
    (performUnitOfWork env m a).1.wipRoot = m.wipRoot := by
  unfold performUnitOfWork
  cases hg : getF m a with
  | none => rfl
  | some f =>
      cases hty : f.type with
      | comp cid => simp [hty]
      | host tag =>
          cases hd : f.dom with
          | some d => simp [hty, hd]
          | none => simp [hty, hd]

@[simp] theorem performUnit_currentRoot (env : ElemEnv) (m : Machine)
    (a : Nat) :
    (performUnitOfWork env m a).1.currentRoot = m.currentRoot := by
  unfold performUnitOfWork
  cases hg : getF m a with
  | none => rfl
  | some f =>
      cases hty : f.type with
      | comp cid => simp [hty]
      | host tag =>
          cases hd : f.dom with
          | some d => simp [hty, hd]
          | none => simp [hty, hd]

@[simp] theorem performUnit_commitCount (env : ElemEnv) (m : Machine)
    (a : Nat) :
    (performUnitOfWork env m a).1.commitCount = m.commitCount := by
  unfold performUnitOfWork
  cases hg : getF m a with
  | none => rfl
  | some f =>
      cases hty : f.type with
      | comp cid => simp [hty]
      | host tag =>
          cases hd : f.dom with
          | some d => simp [hty, hd]
          | none => simp [hty, hd]

@[simp] theorem stepA_wipRoot (env : ElemEnv) (m : Machine) (a : Nat) :
    (stepA env m a).1.wipRoot = m.wipRoot := by
  simp [stepA]

@[simp] theorem stepA_currentRoot (env : ElemEnv) (m : Machine) (a : Nat) :
    (stepA env m a).1.currentRoot = m.currentRoot := by
  simp [stepA]

@[simp] theorem stepA_commitCount (env : ElemEnv) (m : Machine) (a : Nat) :
    (stepA env m a).1.commitCount = m.commitCount := by
  simp [stepA]

theorem loopUnits_wipRoot (env : ElemEnv) :
    ∀ (b : Nat) (m : Machine),
      (loopUnits env b m).1.wipRoot = m.wipRoot := by
  intro b
  induction b with
  | zero => intro m; cases hp : m.nextUnitOfWork <;> simp [loopUnits, hp]
  | succ b ih =>
      intro m
      cases hp : m.nextUnitOfWork <;> simp [loopUnits, hp, ih]

theorem loopUnits_currentRoot (env : ElemEnv) :
    ∀ (b : Nat) (m : Machine),
      (loopUnits env b m).1.currentRoot = m.currentRoot := by
  intro b
  induction b with
  | zero => intro m; cases hp : m.nextUnitOfWork <;> simp [loopUnits, hp]
  | succ b ih =>
      intro m
      cases hp : m.nextUnitOfWork <;> simp [loopUnits, hp, ih]

theorem loopUnits_commitCount (env : ElemEnv) :
    ∀ (b : Nat) (m : Machine),
      (loopUnits env b m).1.commitCount = m.commitCount := by
  intro b
  induction b with
  | zero => intro m; cases hp : m.nextUnitOfWork <;> simp [loopUnits, hp]
  | succ b ih =>
      intro m
      cases hp : m.nextUnitOfWork <;> simp [loopUnits, hp, ih]

/-! ## The work loop: stopping, resumption, composition -/

theorem loopUnits_none (env : ElemEnv) (b : Nat) (m : Machine)
    (h : m.nextUnitOfWork = none) : loopUnits env b m = (m, []) := by
  cases b <;> simp [loopUnits, h]

theorem loopUnits_comp (env : ElemEnv) :
    ∀ (b b2 : Nat) (m : Machine),
      ((loopUnits env b m).1.nextUnitOfWork).isSome = true →
      loopUnits env (b + b2 + 1) m
        = ((loopUnits env b2 (loopUnits env b m).1).1,
           (loopUnits env b m).2
             ++ (loopUnits env b2 (loopUnits env b m).1).2) := by
  intro b
  induction b with
  | zero =>
      intro b2 m h
      cases hp : m.nextUnitOfWork with
      | none =>
          rw [loopUnits_none env 0 m hp] at h
          simp [hp] at h
      | some a =>
          have h0 : loopUnits env 0 m = stepA env m a := by
            simp [loopUnits, hp]
          rw [h0]
          rw [Nat.zero_add]
          simp [loopUnits, hp]
  | succ b ih =>
      intro b2 m h
      cases hp : m.nextUnitOfWork with
      | none =>
          rw [loopUnits_none env (b + 1) m hp] at h
          simp [hp] at h
      | some a =>
          have hstep : loopUnits env (b + 1) m
              = ((loopUnits env b (stepA env m a).1).1,
                 (stepA env m a).2
                   ++ (loopUnits env b (stepA env m a).1).2) := by
            simp [loopUnits, hp]
          rw [hstep] at h ⊢
          have harith : b + 1 + b2 + 1 = (b + b2 + 1) + 1 := by omega
          rw [harith]
          have hL : loopUnits env ((b + b2 + 1) + 1) m
              = ((loopUnits env (b + b2 + 1) (stepA env m a).1).1,
                 (stepA env m a).2
                   ++ (loopUnits env (b + b2 + 1) (stepA env m a).1).2) := by
            simp [loopUnits, hp]
          rw [hL, ih b2 (stepA env m a).1 (by simpa using h)]
          simp [List.append_assoc]

theorem loopUnits_absorb (env : ElemEnv) :
    ∀ (n : Nat) (m : Machine),
      (loopUnits env n m).1.nextUnitOfWork = none →
      ∀ k, loopUnits env (n + k) m = loopUnits env n m := by
  intro n
  induction n with
  | zero =>
      intro m h k
      cases hp : m.nextUnitOfWork with
      | none =>
          rw [loopUnits_none env (0 + k) m hp, loopUnits_none env 0 m hp]
      | some a =>
          have h0 : loopUnits env 0 m = stepA env m a := by
            simp [loopUnits, hp]
          rw [h0] at h ⊢
          cases k with
          | zero => exact h0
          | succ k2 =>
              have harith : (0 : Nat) + (k2 + 1) = k2 + 1 := by omega
              rw [harith]
              simp [loopUnits, hp, loopUnits_none env k2 _ h]
  | succ n ih =>
      intro m h k
      cases hp : m.nextUnitOfWork with
      | none =>
          rw [loopUnits_none env (n + 1 + k) m hp,
              loopUnits_none env (n + 1) m hp]
      | some a =>
          have hstep : loopUnits env (n + 1) m
              = ((loopUnits env n (stepA env m a).1).1,
                 (stepA env m a).2
                   ++ (loopUnits env n (stepA env m a).1).2) := by
            simp [loopUnits, hp]
          rw [hstep] at h ⊢
          have harith : n + 1 + k = (n + k) + 1 := by omega
          rw [harith]
          have hL : loopUnits env ((n + k) + 1) m
              = ((loopUnits env (n + k) (stepA env m a).1).1,
                 (stepA env m a).2
                   ++ (loopUnits env (n + k) (stepA env m a).1).2) := by
            simp [loopUnits, hp]
          rw [hL, ih (stepA env m a).1 (by simpa using h) k]

/-! ## Commit and post-commit effects: scheduler-state facts -/

theorem commitRoot_commitCount (m : Machine) :
    (commitRoot m).1.commitCount = m.commitCount + 1 := rfl

theorem commitRoot_currentRoot (m : Machine) :
    (commitRoot m).1.currentRoot = m.wipRoot := rfl

theorem commitRoot_wipRoot (m : Machine) :
    (commitRoot m).1.wipRoot = none := rfl

theorem commitRoot_nextUnitOfWork (m : Machine) :
    (commitRoot m).1.nextUnitOfWork = m.nextUnitOfWork := rfl

theorem executeEffectsM_pres :
    ∀ (fuel : Nat) (x : Option Nat) (m : Machine),
      (executeEffectsM m fuel x).1.nextUnitOfWork = m.nextUnitOfWork
      ∧ (executeEffectsM m fuel x).1.wipRoot = m.wipRoot
      ∧ (executeEffectsM m fuel x).1.currentRoot = m.currentRoot
      ∧ (executeEffectsM m fuel x).1.commitCount = m.commitCount := by
  intro fuel
  induction fuel with
  | zero => intro x m; cases x <;> exact ⟨rfl, rfl, rfl, rfl⟩
  | succ fuel ih =>
      intro x m
      cases x with
      | none => exact ⟨rfl, rfl, rfl, rfl⟩
      | some a =>
          simp only [executeEffectsM]
          split
          · exact ⟨rfl, rfl, rfl, rfl⟩
          next f hf =>
            have h1 := ih f.child m
            have h2 := ih f.sibling (executeEffectsM m fuel f.child).1
            split
            · exact ⟨h2.1.trans h1.1, h2.2.1.trans h1.2.1,
                     h2.2.2.1.trans h1.2.2.1, h2.2.2.2.trans h1.2.2.2⟩
            · simp only [setF_nextUnitOfWork, setF_wipRoot,
                setF_currentRoot, setF_commitCount]
              exact ⟨h2.1.trans h1.1, h2.2.1.trans h1.2.1,
                     h2.2.2.1.trans h1.2.2.1, h2.2.2.2.trans h1.2.2.2⟩

/-! ## Render-phase purity lemmas -/

theorem performUnit_ops_create (env : ElemEnv) (m : Machine) (a : Nat) :
    ((performUnitOfWork env m a).2.2).all isCreateOp = true := by
  unfold performUnitOfWork
  cases hg : getF m a with
  | none => rfl
  | some f =>
      cases hty : f.type with
      | comp cid => simp [hty]
      | host tag =>
          cases hd : f.dom with
          | some d => simp [hty, hd]
          | none =>
              by_cases htag : tag = textTag <;>
                simp [hty, hd, htag, isCreateOp]

theorem stepA_ops_create (env : ElemEnv) (m : Machine) (a : Nat) :
    ((stepA env m a).2).all isCreateOp = true :=
  performUnit_ops_create env m a

theorem loopUnits_ops_create (env : ElemEnv) :
    ∀ (b : Nat) (m : Machine),
      ((loopUnits env b m).2).all isCreateOp = true := by
  intro b
  induction b with
  | zero =>
      intro m
      cases hp : m.nextUnitOfWork with
      | none => simp [loopUnits, hp]
      | some a => simp [loopUnits, hp, stepA_ops_create]
  | succ b ih =>
      intro m
      cases hp : m.nextUnitOfWork with
      | none => simp [loopUnits, hp]
      | some a =>
          simp [loopUnits, hp, List.all_append, stepA_ops_create, ih]

theorem applyHostOp_create (hs : HostState) (op : HostOp)
    (h : isCreateOp op = true) :
    (applyHostOp hs op).childrenMap = hs.childrenMap
    ∧ (applyHostOp hs op).propsMap = hs.propsMap
    ∧ (applyHostOp hs op).listeners = hs.listeners := by
  cases op <;> simp_all [isCreateOp, applyHostOp]

theorem applyHostOps_create :
    ∀ (ops : List HostOp), ops.all isCreateOp = true →
      ∀ hs : HostState,
        (applyHostOps hs ops).childrenMap = hs.childrenMap
        ∧ (applyHostOps hs ops).propsMap = hs.propsMap
        ∧ (applyHostOps hs ops).listeners = hs.listeners := by
  intro ops
  induction ops with
  | nil => intro _ hs; exact ⟨rfl, rfl, rfl⟩
  | cons op rest ih =>
      intro h hs
      rw [List.all_cons, Bool.and_eq_true] at h
      have h1 := applyHostOp_create hs op h.1
      have h2 := ih h.2 (applyHostOp hs op)
      exact ⟨h2.1.trans h1.1, h2.2.1.trans h1.2.1, h2.2.2.trans h1.2.2⟩

/-- C5.  During the render phase — any number of units of work performed
by the work loop, each including `reconcileChildren` and, for component
fibers, the component-function invocation — every emitted host operation
is a node creation (the created node stays detached), and applying the
whole render-phase trace to any host state leaves the mounted tree, the
node attributes and the event listeners unchanged: all host mutations are
confined to the commit phase. -/
theorem claim_C5 (env : ElemEnv) (b : Nat) (m : Machine) :
    ((loopUnits env b m).2).all isCreateOp = true
    ∧ (∀ a, ((performUnitOfWork env m a).2.2).all isCreateOp = true)
    ∧ ∀ hs : HostState,
        (applyHostOps hs (loopUnits env b m).2).childrenMap
            = hs.childrenMap
        ∧ (applyHostOps hs (loopUnits env b m).2).propsMap = hs.propsMap
        ∧ (applyHostOps hs (loopUnits env b m).2).listeners
            = hs.listeners := by
  refine ⟨loopUnits_ops_create env b m,
          fun a => performUnit_ops_create env m a,
          fun hs => applyHostOps_create (loopUnits env b m).2
            (loopUnits_ops_create env b m) hs⟩

/-- C2.  If the time budget runs out mid-walk (the loop stops with the
next-unit pointer still non-null), the work-loop invocation returns
without committing: pointer, work-in-progress root, committed root and
commit counter are unchanged by the commit machinery.  Resuming later
with an inexhaustible budget (here: a budget `n` on which the walk is
known to complete) continues from the stored pointer, reaches pointer
`none`, and commits exactly once — the commit counter increments by one,
the committed root becomes the work-in-progress root, which is cleared —
producing exactly the machine and trace of an uninterrupted run; and a
further invocation after the commit performs nothing and does not commit
again. -/
theorem claim_C2 (env : ElemEnv) (b n : Nat) (m : Machine) (a r : Nat)
    (hint : (loopUnits env b m).1.nextUnitOfWork = some a)
    (hcomp : (loopUnits env n m).1.nextUnitOfWork = none)
    (hwip : m.wipRoot = some r) :
    workLoopTick env b m = loopUnits env b m
    ∧ (workLoopTick env b m).1.nextUnitOfWork = some a
    ∧ (workLoopTick env b m).1.commitCount = m.commitCount
    ∧ (workLoopTick env b m).1.currentRoot = m.currentRoot
    ∧ (workLoopTick env b m).1.wipRoot = some r
    ∧ (workLoopTick env n (workLoopTick env b m).1).1.nextUnitOfWork = none
    ∧ (workLoopTick env n (workLoopTick env b m).1).1.wipRoot = none
    ∧ (workLoopTick env n (workLoopTick env b m).1).1.currentRoot = some r
    ∧ (workLoopTick env n (workLoopTick env b m).1).1.commitCount
        = m.commitCount + 1
    ∧ (workLoopTick env n (workLoopTick env b m).1).1
        = (workLoopTick env (b + n + 1) m).1
    ∧ (workLoopTick env b m).2
          ++ (workLoopTick env n (workLoopTick env b m).1).2
        = (workLoopTick env (b + n + 1) m).2
    ∧ ∀ b2, workLoopTick env b2
          (workLoopTick env n (workLoopTick env b m).1).1
        = ((workLoopTick env n (workLoopTick env b m).1).1, []) := by
  -- the interrupted tick takes the no-commit branch
  have htick1 : workLoopTick env b m = loopUnits env b m := by
    unfold workLoopTick
    rw [if_neg]
    simp [hint]
  -- composition: the resumed walk continues the interrupted one
  have hcompose := loopUnits_comp env b n m (by simp [hint])
  -- with enough budget the walk has stabilized
  have habsorb : loopUnits env (n + (b + 1)) m = loopUnits env n m :=
    loopUnits_absorb env n m hcomp (b + 1)
  have harith : n + (b + 1) = b + n + 1 := by omega
  rw [harith] at habsorb
  have hfst : (loopUnits env n (loopUnits env b m).1).1
      = (loopUnits env n m).1 := by
    have h2 := congrArg Prod.fst hcompose
    rw [habsorb] at h2
    exact h2.symm
  have htrace : (loopUnits env b m).2
      ++ (loopUnits env n (loopUnits env b m).1).2
      = (loopUnits env n m).2 := by
    have h2 := congrArg Prod.snd hcompose
    rw [habsorb] at h2
    exact h2.symm
  have hwip1 : (loopUnits env b m).1.wipRoot = some r :=
    (loopUnits_wipRoot env b m).trans hwip
  have hwipn : (loopUnits env n m).1.wipRoot = some r :=
    (loopUnits_wipRoot env n m).trans hwip
  have hguard : (((loopUnits env n m).1.nextUnitOfWork).isNone
      && ((loopUnits env n m).1.wipRoot).isSome) = true := by
    simp [hcomp, hwipn]
  have htick2 : workLoopTick env n (loopUnits env b m).1
      = ((executeEffectsM (commitRoot (loopUnits env n m).1).1
            (commitRoot (loopUnits env n m).1).1.heap.length
            (commitRoot (loopUnits env n m).1).1.currentRoot).1,
         (loopUnits env n (loopUnits env b m).1).2
           ++ (commitRoot (loopUnits env n m).1).2
           ++ (executeEffectsM (commitRoot (loopUnits env n m).1).1
                (commitRoot (loopUnits env n m).1).1.heap.length
                (commitRoot (loopUnits env n m).1).1.currentRoot).2) := by
    simp only [workLoopTick]
    rw [hfst, if_pos hguard]
  have htickU : workLoopTick env (b + n + 1) m
      = ((executeEffectsM (commitRoot (loopUnits env n m).1).1
            (commitRoot (loopUnits env n m).1).1.heap.length
            (commitRoot (loopUnits env n m).1).1.currentRoot).1,
         (loopUnits env n m).2
           ++ (commitRoot (loopUnits env n m).1).2
           ++ (executeEffectsM (commitRoot (loopUnits env n m).1).1
                (commitRoot (loopUnits env n m).1).1.heap.length
                (commitRoot (loopUnits env n m).1).1.currentRoot).2) := by
    simp only [workLoopTick]
    rw [habsorb, if_pos hguard]
  have hex := executeEffectsM_pres
    (commitRoot (loopUnits env n m).1).1.heap.length
    (commitRoot (loopUnits env n m).1).1.currentRoot
    (commitRoot (loopUnits env n m).1).1
  refine ⟨htick1, ?_, ?_, ?_, ?_, ?_, ?_, ?_, ?_, ?_, ?_, ?_⟩
  · rw [htick1]; exact hint
  · rw [htick1]; exact loopUnits_commitCount env b m
  · rw [htick1]; exact loopUnits_currentRoot env b m
  · rw [htick1]; exact hwip1
  · rw [htick1, htick2]
    exact hex.1.trans
      ((commitRoot_nextUnitOfWork (loopUnits env n m).1).trans hcomp)
  · rw [htick1, htick2]
    exact hex.2.1.trans (commitRoot_wipRoot (loopUnits env n m).1)
  · rw [htick1, htick2]
    exact hex.2.2.1.trans
      ((commitRoot_currentRoot (loopUnits env n m).1).trans hwipn)
  · rw [htick1, htick2]
    exact hex.2.2.2.trans
      ((commitRoot_commitCount (loopUnits env n m).1).trans
        (by rw [loopUnits_commitCount env n m]))
  · rw [htick1, htick2, htickU]
  · rw [htick1, htick2, htickU]
    simp only [← List.append_assoc]
    rw [htrace]
  · intro b2
    rw [htick1, htick2]
    have hnone : (executeEffectsM (commitRoot (loopUnits env n m).1).1
        (commitRoot (loopUnits env n m).1).1.heap.length
        (commitRoot (loopUnits env n m).1).1.currentRoot
        ).1.nextUnitOfWork = none :=
      hex.1.trans
        ((commitRoot_nextUnitOfWork (loopUnits env n m).1).trans hcomp)
    have hwnone : (executeEffectsM (commitRoot (loopUnits env n m).1).1
        (commitRoot (loopUnits env n m).1).1.heap.length
        (commitRoot (loopUnits env n m).1).1.currentRoot
        ).1.wipRoot = none :=
      hex.2.1.trans (commitRoot_wipRoot (loopUnits env n m).1)
    unfold workLoopTick
    rw [loopUnits_none env b2 _ hnone]
    rw [if_neg]
    simp [hwnone]

/-- Witness for C2 on a concrete render of `div > text` into container
handle 0 (three units of work: root, div, text).  A tick with budget 0
stops after one unit with the pointer at fiber 1 and no commit; resuming
with budget 2 finishes the walk, clears the work-in-progress root and
commits exactly once. -/
theorem claim_C2_witness :
    (workLoopTick (fun _ _ _ => Elem.mk (FType.host "div") [] []) 0
        (renderM
          (Elem.mk (FType.host "div") [("id", AVal.str "a")]
            [Elem.mk (FType.host textTag) [("nodeValue", AVal.str "hi")] []])
          "DIV" 0 { emptyMachine with nextDom := 1 })).1.nextUnitOfWork
      = some 1
    ∧ (workLoopTick (fun _ _ _ => Elem.mk (FType.host "div") [] []) 0
        (renderM
          (Elem.mk (FType.host "div") [("id", AVal.str "a")]
            [Elem.mk (FType.host textTag) [("nodeValue", AVal.str "hi")] []])
          "DIV" 0 { emptyMachine with nextDom := 1 })).1.commitCount = 0
    ∧ (workLoopTick (fun _ _ _ => Elem.mk (FType.host "div") [] []) 2
        (workLoopTick (fun _ _ _ => Elem.mk (FType.host "div") [] []) 0
          (renderM
            (Elem.mk (FType.host "div") [("id", AVal.str "a")]
              [Elem.mk (FType.host textTag) [("nodeValue", AVal.str "hi")]
                []])
            "DIV" 0
            { emptyMachine with nextDom := 1 })).1).1.nextUnitOfWork = none
    ∧ (workLoopTick (fun _ _ _ => Elem.mk (FType.host "div") [] []) 2
        (workLoopTick (fun _ _ _ => Elem.mk (FType.host "div") [] []) 0
          (renderM
            (Elem.mk (FType.host "div") [("id", AVal.str "a")]
              [Elem.mk (FType.host textTag) [("nodeValue", AVal.str "hi")]
                []])
            "DIV" 0
            { emptyMachine with nextDom := 1 })).1).1.wipRoot = none
    ∧ (workLoopTick (fun _ _ _ => Elem.mk (FType.host "div") [] []) 2
        (workLoopTick (fun _ _ _ => Elem.mk (FType.host "div") [] []) 0
          (renderM
            (Elem.mk (FType.host "div") [("id", AVal.str "a")]
              [Elem.mk (FType.host textTag) [("nodeValue", AVal.str "hi")]
                []])
            "DIV" 0
            { emptyMachine with nextDom := 1 })).1).1.commitCount = 1 := by
  have h := claim_C2 (fun _ _ _ => Elem.mk (FType.host "div") [] []) 0 2
    (renderM
      (Elem.mk (FType.host "div") [("id", AVal.str "a")]
        [Elem.mk (FType.host textTag) [("nodeValue", AVal.str "hi")] []])
      "DIV" 0 { emptyMachine with nextDom := 1 })
    1 0 rfl rfl rfl
  exact ⟨h.2.1, h.2.2.1, h.2.2.2.2.2.1, h.2.2.2.2.2.2.1,
         h.2.2.2.2.2.2.2.2.1⟩

end ReactMini
